import Mathlib

/-!
Shallow embedding of billy1234/rust-mandlebrot (src/main.rs).

Modelling conventions:
* The fixed-point coordinate type MReal = FixedI128<U117> is modelled by exact
  rationals for the divergence computation: every concrete input used in the
  theorems below is exactly representable and stays far inside the type's
  range, so the idealisation agrees with the fixed-point arithmetic there.
  The raw 128-bit fixed-point representation itself (with its release-build
  wrapping semantics) is modelled separately for the overflow analysis.
* f64 results (divergence fractions) are modelled as exact rationals.
* A Rust panic is modelled as the `none` branch of an `Option`.
-/

namespace Mandle

/-- src/main.rs line 21: `const WIDTH: usize = 640`. -/
def WIDTH : ℕ := 640

/-- src/main.rs line 22: `const HEIGHT: usize = 360`. -/
def HEIGHT : ℕ := 360

/-- src/main.rs line 99: the escape test of `calc_mandle_divergence`,
`a.abs() + b.abs() > 4.0`. -/
def escapeTest (a b : ℚ) : Bool := decide ((4 : ℚ) < |a| + |b|)

/-- The `for i in 0..max_iter` loop of `calc_mandle_divergence`
(src/main.rs lines 98-111), returning the loop counter at which the escape
test fired (`return i as f64 / max_iter as f64` becomes `some i`) or `none`
when the loop ran out of fuel (the `return 0.0` fall-through at line 112).
`z0a, z0b` are the immutable copies `z0_a, z0_b`; `a, b` the mutated state. -/
def divergenceLoop (z0a z0b : ℚ) (a b : ℚ) (i : ℕ) (fuel : ℕ) : Option ℕ :=
  match fuel with
  | 0 => none
  | Nat.succ fuel₁ =>
    if escapeTest a b then some i
    else
      divergenceLoop z0a z0b (a * a - b * b + z0a) (2 * a * b + z0b) (i + 1) fuel₁

/-- The iteration at which `calc_mandle_divergence a b max_iter` escapes
(`none` = the interior fall-through). -/
def mandleEscapeIndex (a b : ℚ) (max_iter : ℕ) : Option ℕ :=
  divergenceLoop a b a b 0 max_iter

/-- src/main.rs lines 90-113: `calc_mandle_divergence`. On escape at loop
counter i it returns `i as f64 / max_iter as f64`; if the loop completes it
returns `0.0`. -/
def calc_mandle_divergence (a b : ℚ) (max_iter : ℕ) : ℚ :=
  match mandleEscapeIndex a b max_iter with
  | some i => (i : ℚ) / (max_iter : ℚ)
  | none => 0

/-- The orbit z₀ = c, z₍ₖ₊₁₎ = z₍ₖ₎² + c that the loop body of
`calc_mandle_divergence` steps through (lines 103-108), as a closed-form
sequence of (real, imaginary) pairs. -/
def mandleOrbit (a b : ℚ) : ℕ → ℚ × ℚ
  | 0 => (a, b)
  | Nat.succ k =>
    let p := mandleOrbit a b k
    (p.1 * p.1 - p.2 * p.2 + a, 2 * p.1 * p.2 + b)

/-- Modelled from the spec (§4.2): the same escape loop but with the
magnitude-squared escape metric re² + im² > 4 that the spec requires. -/
def divergenceLoopSpec (z0a z0b : ℚ) (a b : ℚ) (i : ℕ) (fuel : ℕ) : Option ℕ :=
  match fuel with
  | 0 => none
  | Nat.succ fuel₁ =>
    if (4 : ℚ) < a * a + b * b then some i
    else
      divergenceLoopSpec z0a z0b (a * a - b * b + z0a) (2 * a * b + z0b) (i + 1) fuel₁

/-- Modelled from the spec (§4.2): escape iteration under the spec's
magnitude-squared metric. -/
def mandleEscapeIndexSpec (a b : ℚ) (max_iter : ℕ) : Option ℕ :=
  divergenceLoopSpec a b a b 0 max_iter

/-- Rust's saturating f64-to-u32 `as` cast (src/main.rs line 140): values
below 0 go to 0, values at or above 2³² to 2³² - 1, the rest truncate
toward zero (the argument is nonnegative there, so floor = truncation). -/
def rust_as_u32 (x : ℚ) : ℕ :=
  if x < 0 then 0 else min (Int.toNat ⌊x⌋) (2 ^ 32 - 1)

/-- src/main.rs lines 138-148: `map_color`. `num = (x * 4294967296.0) as u32`;
the triple is `(num as u8, (num >> 8) as u8, (num >> 16) as u8)`, i.e. the
low, second and third bytes of `num` as (R, G, B). -/
def map_color (x : ℚ) : ℕ × ℕ × ℕ :=
  let num := rust_as_u32 (x * 4294967296)
  (num % 2 ^ 8, num / 2 ^ 8 % 2 ^ 8, num / 2 ^ 16 % 2 ^ 8)

/-- Modelled from the spec (§4.4): scale the fraction by 2³², truncate to a
32-bit integer, low byte red, next byte green, next byte blue. -/
def map_color_spec (x : ℚ) : ℕ × ℕ × ℕ :=
  let num := Int.toNat ⌊x * 2 ^ 32⌋ % 2 ^ 32
  (num % 2 ^ 8, num / 2 ^ 8 % 2 ^ 8, num / 2 ^ 16 % 2 ^ 8)

/-- src/main.rs lines 43-47: `struct Grid<T>` with `rows`, `cols` and the
boxed slice `contents`. -/
structure Grid (T : Type) where
  rows : ℕ
  cols : ℕ
  contents : List T

/-- src/main.rs lines 51-58: `Grid::new(rows, cols, default)` fills a
`rows * cols` slice with the default (`vec![default; rows * cols]`). -/
def Grid.new (T : Type) (rows cols : ℕ) (default : T) : Grid T :=
  ⟨rows, cols, List.replicate (rows * cols) default⟩

/-- src/main.rs lines 60-72: `Grid::get`, which hands back `&mut
self.contents[y * self.rows + x]`. The mutable borrow is modelled by the
storage index it designates; the `panic!` branch (x ≥ rows or y ≥ cols) is
`none`. -/
def Grid.get (g : Grid T) (x y : ℕ) : Option ℕ :=
  if x ≥ g.rows ∨ y ≥ g.cols then none
  else some (y * g.rows + x)

/-- src/main.rs lines 74-86: `Grid::get_val`, returning a clone of
`self.contents[y * self.rows + x]`; the `panic!` branch is `none`, and an
in-bounds read uses the list lookup at the same index. -/
def Grid.get_val (g : Grid T) (x y : ℕ) : Option T :=
  if x ≥ g.rows ∨ y ≥ g.cols then none
  else g.contents.get? (y * g.rows + x)

/-- One frame-buffer store `frame[o] = v`, with the buffer as a map from
byte offset to byte value. -/
def applyWrites (l : List (ℕ × ℕ)) (frame : ℕ → ℕ) : ℕ → ℕ :=
  l.foldl (fun f w => Function.update f w.1 w.2) frame

/-- src/main.rs lines 155-164: the body of `render_mandlebrot` for one pixel
(x, y): `col = map_color(grid.get_val(x, y))`, then the four stores at byte
offsets `(x + y * WIDTH) * 4` through `... + 3`, the last one `0xff`.
`val x y` stands for `grid.get_val(x, y)` (in bounds, so never the panic). -/
def pixelWrites (w : ℕ) (val : ℕ → ℕ → ℚ) (x y : ℕ) : List (ℕ × ℕ) :=
  let col := map_color (val x y)
  [((x + y * w) * 4, col.1), ((x + y * w) * 4 + 1, col.2.1),
   ((x + y * w) * 4 + 2, col.2.2), ((x + y * w) * 4 + 3, 0xff)]

/-- The write sequence of `render_mandlebrot`'s double loop
(`for x in 0..WIDTH { for y in 0..HEIGHT { ... } }`), in program order. -/
def renderWritesGen (w h : ℕ) (val : ℕ → ℕ → ℚ) : List (ℕ × ℕ) :=
  (List.range w).flatMap fun x =>
    (List.range h).flatMap fun y => pixelWrites w val x y

/-- The four frame-buffer byte offsets pixel (x, y) is written to. -/
def pixelOffsets (w x y : ℕ) : List ℕ :=
  [(x + y * w) * 4, (x + y * w) * 4 + 1, (x + y * w) * 4 + 2,
   (x + y * w) * 4 + 3]

/-- src/main.rs lines 150-166: `render_mandlebrot(grid, frame)` performs all
the stores of the double loop on the frame buffer. The grid value read for a
pixel is `grid.get_val(x, y)`; the source panics when that access is out of
bounds, which never happens for the WIDTH x HEIGHT grids the program
builds (the `getD 0` default is that unreachable branch). -/
def render_mandlebrot (g : Grid ℚ) (frame : ℕ → ℕ) : ℕ → ℕ :=
  applyWrites
    (renderWritesGen WIDTH HEIGHT fun x y => (g.get_val x y).getD 0) frame

/-- src/main.rs lines 24-29: `struct MandleParams` (MReal coordinates and
zoom modelled as exact rationals, `iterations: u32` as ℕ). -/
structure MandleParams where
  x : ℚ
  y : ℚ
  zoom : ℚ
  iterations : ℕ
deriving DecidableEq

/-- The contents of the `RwLock<MandleParams>` cell after `k` writer
critical sections have completed: the last of the first `k` whole-struct
writes, or the initial value when none has. Each write is atomic (the
writer holds the write lock for the whole mutation). -/
def paramsAt (init : MandleParams) (writes : List MandleParams) (k : ℕ) :
    MandleParams :=
  (writes.take k).getLastD init

/-- src/main.rs lines 176-179: the snapshot `update` passes to
`calc_mandlebrot_set`. Each field is fetched under its own read-lock
acquisition (`settings.read().unwrap().x`, then `.y`, then `.zoom`, then
`.iterations`), so each of the four reads sees the cell after a possibly
different number `k₁ ≤ k₂ ≤ k₃ ≤ k₄` of completed writes. -/
def updateSnapshot (init : MandleParams) (writes : List MandleParams)
    (k₁ k₂ k₃ k₄ : ℕ) : MandleParams :=
  { x := (paramsAt init writes k₁).x
    y := (paramsAt init writes k₂).y
    zoom := (paramsAt init writes k₃).zoom
    iterations := (paramsAt init writes k₄).iterations }

/-- Number of fractional bits of `MReal = FixedI128<U117>`
(src/main.rs lines 14-17). -/
def mrealFracBits : ℕ := 117

/-- Wrap an integer into the signed 128-bit range [-2¹²⁷, 2¹²⁷): the
two's-complement truncation the `fixed` crate's arithmetic performs in a
release build when the true result does not fit. -/
def wrap128 (n : ℤ) : ℤ :=
  (n + 2 ^ 127) % 2 ^ 128 - 2 ^ 127

/-- Release-build multiplication on raw `MReal` bit patterns (scaled by
2¹¹⁷): the full 256-bit product arithmetic-shifted right by the 117
fractional bits, then truncated to 128 bits with no overflow signal. -/
def mreal_mul_raw (x y : ℤ) : ℤ :=
  wrap128 (Int.fdiv (x * y) (2 ^ mrealFracBits))

/-- The real value a raw `MReal` bit pattern denotes. -/
def mreal_to_val (x : ℤ) : ℚ :=
  (x : ℚ) / 2 ^ mrealFracBits

/-- The raw `MReal` bit pattern of an integer value (exact, as
`MReal::from_num` produces for in-range integers). -/
def mreal_of_int (n : ℤ) : ℤ :=
  n * 2 ^ mrealFracBits

/-- The largest real value `MReal = FixedI128<U117>` can represent is just
below 1024 = 2¹⁰ (11 integer bits including sign; see the comment at
src/main.rs line 18). -/
def mrealMaxVal : ℚ := 1024

end Mandle

namespace Mandle

/-- divergenceLoop only returns counters in [i, i + fuel). -/
theorem divergenceLoop_some_bounds (fuel : ℕ) :
    ∀ z0a z0b a b i j, divergenceLoop z0a z0b a b i fuel = some j →
      i ≤ j ∧ j < i + fuel := by
  induction fuel with
  | zero => intro z0a z0b a b i j h; simp [divergenceLoop] at h
  | succ n ih =>
    intro z0a z0b a b i j h
    rw [divergenceLoop] at h
    by_cases he : escapeTest a b
    · simp [he] at h
      omega
    · simp [he] at h
      have := ih z0a z0b _ _ _ _ h
      omega

/-- Increasing the fuel of a loop run that already escaped does not change
the escape counter. -/
theorem divergenceLoop_fuel_mono (fuel : ℕ) :
    ∀ fuel₂ z0a z0b a b i j, fuel ≤ fuel₂ →
      divergenceLoop z0a z0b a b i fuel = some j →
      divergenceLoop z0a z0b a b i fuel₂ = some j := by
  induction fuel with
  | zero => intro fuel₂ z0a z0b a b i j _ h; simp [divergenceLoop] at h
  | succ n ih =>
    intro fuel₂ z0a z0b a b i j hle h
    obtain ⟨m, rfl⟩ : ∃ m, fuel₂ = m + 1 := ⟨fuel₂ - 1, by omega⟩
    rw [divergenceLoop] at h ⊢
    by_cases he : escapeTest a b
    · simpa [he] using by simpa [he] using h
    · simp only [he, if_neg, Bool.false_eq_true, if_false] at h ⊢
      exact ih m z0a z0b _ _ _ _ (by omega) h

/-- The loop state of `calc_mandle_divergence` after k iterations is the
k-th orbit point. -/
theorem divergenceLoop_eq_orbit (a b : ℚ) (fuel : ℕ) :
    ∀ k, divergenceLoop a b (mandleOrbit a b k).1 (mandleOrbit a b k).2 k fuel =
      match fuel with
      | 0 => none
      | Nat.succ fuel₁ =>
        if escapeTest (mandleOrbit a b k).1 (mandleOrbit a b k).2 then some k
        else divergenceLoop a b (mandleOrbit a b (k + 1)).1
          (mandleOrbit a b (k + 1)).2 (k + 1) fuel₁ := by
  intro k
  cases fuel with
  | zero => rfl
  | succ n =>
    rw [divergenceLoop]
    by_cases he : escapeTest (mandleOrbit a b k).1 (mandleOrbit a b k).2
    · simp [he]
    · simp only [he, Bool.false_eq_true, if_false]
      rfl

/-- Characterisation of the escape iteration through the orbit: the loop
reports `some i` exactly when the i-th orbit point is the first to pass the
escape test, within fuel. -/
theorem divergenceLoop_orbit_iff (a b : ℚ) (fuel : ℕ) :
    ∀ k i,
      (divergenceLoop a b (mandleOrbit a b k).1 (mandleOrbit a b k).2 k fuel
          = some i) ↔
        (k ≤ i ∧ i < k + fuel ∧
          escapeTest (mandleOrbit a b i).1 (mandleOrbit a b i).2 = true ∧
          ∀ j, k ≤ j → j < i →
            escapeTest (mandleOrbit a b j).1 (mandleOrbit a b j).2 = false) := by
  induction fuel with
  | zero =>
    intro k i
    rw [divergenceLoop_eq_orbit]
    simp only [false_iff]
    constructor
    · intro h; cases h
    · rintro ⟨h1, h2, -⟩; omega
  | succ n ih =>
    intro k i
    rw [divergenceLoop_eq_orbit]
    by_cases he : escapeTest (mandleOrbit a b k).1 (mandleOrbit a b k).2
    · simp only [he, if_true, Option.some_inj]
      constructor
      · rintro rfl
        exact ⟨le_refl _, by omega, he, fun j h1 h2 => by omega⟩
      · rintro ⟨h1, h2, h3, h4⟩
        by_contra hne
        have : k < i := by omega
        have := h4 k (le_refl _) this
        rw [he] at this
        cases this
    · simp only [he, Bool.false_eq_true, if_false]
      rw [ih (k + 1) i]
      have heF : escapeTest (mandleOrbit a b k).1 (mandleOrbit a b k).2 = false := by
        simpa using he
      constructor
      · rintro ⟨h1, h2, h3, h4⟩
        refine ⟨by omega, by omega, h3, fun j hj1 hj2 => ?_⟩
        rcases Nat.eq_or_lt_of_le hj1 with rfl | hj
        · exact heF
        · exact h4 j hj hj2
      · rintro ⟨h1, h2, h3, h4⟩
        have hki : k ≠ i := by
          rintro rfl
          rw [h3] at heF
          cases heF
        exact ⟨by omega, by omega, h3, fun j hj1 hj2 => h4 j (by omega) hj2⟩

/-- The origin's loop state never leaves (0, 0) and the test never fires. -/
theorem divergenceLoop_origin (fuel : ℕ) :
    ∀ k, divergenceLoop 0 0 0 0 k fuel = none := by
  induction fuel with
  | zero => intro k; rfl
  | succ n ih =>
    intro k
    rw [divergenceLoop]
    have he : escapeTest 0 0 = false := by
      simp [escapeTest]
    simp only [he, Bool.false_eq_true, if_false]
    have h0 : (0 : ℚ) * 0 - 0 * 0 + 0 = 0 := by norm_num
    have h1 : (2 : ℚ) * 0 * 0 + 0 = 0 := by norm_num
    rw [h0, h1]
    exact ih (k + 1)

/-- C1: the code returns the same value 0.0 for a point that never escapes
(interior, the fall-through return at line 112) and for a point that escapes
at iteration 0 (0 / max_iter): at maxIterations = 1 the origin stays
interior and (5, 0) escapes immediately, yet `calc_mandle_divergence` yields
0 in both cases — there is no distinguished interior sentinel. -/
theorem interior_sentinel_collides_with_escape_at_zero :
    mandleEscapeIndex 0 0 1 = none ∧ calc_mandle_divergence 0 0 1 = 0 ∧
    mandleEscapeIndex 5 0 1 = some 0 ∧ calc_mandle_divergence 5 0 1 = 0 := by
  have h1 : mandleEscapeIndex 0 0 1 = none := divergenceLoop_origin 1 0
  have h2 : mandleEscapeIndex 5 0 1 = some 0 := by
    norm_num [mandleEscapeIndex, divergenceLoop, escapeTest]
  refine ⟨h1, ?_, h2, ?_⟩
  · simp only [calc_mandle_divergence, h1]
  · simp only [calc_mandle_divergence, h2]
    norm_num

/-- C3 counterexample: at c = (5/2, 0) both spec metrics fire at iteration 0
(re² + im² = 25/4 > 4, and |re| + |im| = 5/2 > 2), but the code's test does
not: `calc_mandle_divergence` only escapes at iteration 1, because the code
compares |re| + |im| against 4, not re² + im² against 4 (nor |re| + |im|
against 2). -/
theorem escape_metric_not_magnitude_squared :
    ((4 : ℚ) < (5 / 2 : ℚ) * (5 / 2) + 0 * 0) ∧
    ((2 : ℚ) < |(5 / 2 : ℚ)| + |(0 : ℚ)|) ∧
    mandleEscapeIndexSpec (5 / 2) 0 2 = some 0 ∧
    mandleEscapeIndex (5 / 2) 0 2 = some 1 := by
  refine ⟨by norm_num, by rw [abs_zero]; norm_num [abs_of_nonneg], ?_, ?_⟩
  · norm_num [mandleEscapeIndexSpec, divergenceLoopSpec]
  · norm_num [mandleEscapeIndex, divergenceLoop, escapeTest, abs_of_nonneg]

/-- C3 amended: the escape test the code applies at every iteration is the
sum-of-absolute-values comparison |re| + |im| > 4 (see `escapeTest`):
`calc_mandle_divergence` escapes at iteration i exactly when the i-th orbit
point is the first to satisfy |re| + |im| > 4 within the budget. -/
theorem escape_test_is_abs_sum_gt_four (a b : ℚ) (N i : ℕ) :
    mandleEscapeIndex a b N = some i ↔
      (i < N ∧ escapeTest (mandleOrbit a b i).1 (mandleOrbit a b i).2 = true ∧
        ∀ j < i,
          escapeTest (mandleOrbit a b j).1 (mandleOrbit a b j).2 = false) := by
  have h0 : mandleOrbit a b 0 = (a, b) := rfl
  have h := divergenceLoop_orbit_iff a b N 0 i
  rw [h0] at h
  rw [mandleEscapeIndex, h]
  constructor
  · rintro ⟨-, h2, h3, h4⟩
    exact ⟨by omega, h3, fun j hj => h4 j (Nat.zero_le j) hj⟩
  · rintro ⟨h1, h2, h3⟩
    exact ⟨Nat.zero_le i, by omega, h2, fun j _ hj => h3 j hj⟩

/-- C4: when the code escapes at iteration i the returned divergence is
exactly i / N; every return value (escaping or interior) lies in
[0, (N - 1)/N], and the interior fall-through returns 0 (which the code uses
as its sentinel, inside that range). f64 arithmetic is modelled by exact
rationals. -/
theorem divergence_return_value_range (a b : ℚ) (N : ℕ) (hN : 1 ≤ N) :
    (∀ i, mandleEscapeIndex a b N = some i →
      i < N ∧ calc_mandle_divergence a b N = (i : ℚ) / (N : ℚ)) ∧
    0 ≤ calc_mandle_divergence a b N ∧
    calc_mandle_divergence a b N ≤ ((N : ℚ) - 1) / (N : ℚ) ∧
    (mandleEscapeIndex a b N = none → calc_mandle_divergence a b N = 0) := by
  have hNQ : (0 : ℚ) < (N : ℚ) := by
    exact_mod_cast Nat.lt_of_lt_of_le Nat.zero_lt_one hN
  have hNQ1 : (1 : ℚ) ≤ (N : ℚ) := by exact_mod_cast hN
  have hmain : ∀ i, mandleEscapeIndex a b N = some i →
      i < N ∧ calc_mandle_divergence a b N = (i : ℚ) / (N : ℚ) := by
    intro i hi
    have hb := divergenceLoop_some_bounds N a b a b 0 i hi
    refine ⟨by omega, ?_⟩
    simp only [calc_mandle_divergence, hi]
  refine ⟨hmain, ?_, ?_, ?_⟩
  · rcases h : mandleEscapeIndex a b N with - | i
    · simp only [calc_mandle_divergence, h]
      norm_num
    · rw [(hmain i h).2]
      positivity
  · rcases h : mandleEscapeIndex a b N with - | i
    · simp only [calc_mandle_divergence, h]
      apply div_nonneg _ (le_of_lt hNQ)
      linarith
    · obtain ⟨hiN, hval⟩ := hmain i h
      rw [hval]
      have hle : (i : ℚ) ≤ (N : ℚ) - 1 := by
        have h1 : (i : ℚ) + 1 ≤ (N : ℚ) := by exact_mod_cast hiN
        linarith
      rw [div_le_div_iff₀ hNQ hNQ]
      nlinarith [hle, hNQ]
  · intro h
    simp only [calc_mandle_divergence, h]

/-- C4 witness: the range theorem applied at c = (5, 0) with N = 1. -/
theorem divergence_return_value_range_witness :
    (∀ i, mandleEscapeIndex 5 0 1 = some i →
      i < 1 ∧ calc_mandle_divergence 5 0 1 = (i : ℚ) / (1 : ℚ)) ∧
    0 ≤ calc_mandle_divergence 5 0 1 ∧
    calc_mandle_divergence 5 0 1 ≤ ((1 : ℚ) - 1) / (1 : ℚ) ∧
    (mandleEscapeIndex 5 0 1 = none → calc_mandle_divergence 5 0 1 = 0) :=
  divergence_return_value_range 5 0 1 (le_refl 1)

/-- C5: for every maxIterations ≥ 1 the origin (0, 0) never escapes — the
loop runs to the interior fall-through — and `calc_mandle_divergence`
returns the code's interior value 0. -/
theorem origin_maps_to_interior (N : ℕ) (_hN : 1 ≤ N) :
    mandleEscapeIndex 0 0 N = none ∧ calc_mandle_divergence 0 0 N = 0 := by
  have h : mandleEscapeIndex 0 0 N = none := divergenceLoop_origin N 0
  exact ⟨h, by simp only [calc_mandle_divergence, h]⟩

/-- C5 witness: the origin theorem applied at N = 1. -/
theorem origin_maps_to_interior_witness :
    mandleEscapeIndex 0 0 1 = none ∧ calc_mandle_divergence 0 0 1 = 0 :=
  origin_maps_to_interior 1 (le_refl 1)

/-- C6: if `calc_mandle_divergence` escapes at iteration i within budget N,
then with budget 2N it escapes at an iteration no smaller than i (in fact at
the same i, since the orbit does not depend on the budget). -/
theorem escape_iteration_monotone_in_budget (a b : ℚ) (N i : ℕ)
    (h : mandleEscapeIndex a b N = some i) :
    i < N ∧ ∃ j, mandleEscapeIndex a b (2 * N) = some j ∧ i ≤ j := by
  have hb := divergenceLoop_some_bounds N a b a b 0 i h
  refine ⟨by omega, i, ?_, le_refl i⟩
  exact divergenceLoop_fuel_mono N (2 * N) a b a b 0 i (by omega) h

/-- C6 witness: the monotone-refinement theorem applied at c = (5, 0),
N = 1, escape iteration 0. -/
theorem escape_iteration_monotone_in_budget_witness :
    0 < 1 ∧ ∃ j, mandleEscapeIndex 5 0 (2 * 1) = some j ∧ 0 ≤ j :=
  escape_iteration_monotone_in_budget 5 0 1 0
    (by norm_num [mandleEscapeIndex, divergenceLoop, escapeTest, abs_of_nonneg])

/-- C2: because `update` acquires the read lock once per field (lines
176-179), a whole-struct write that lands between the read of `x` and the
read of `y` yields a snapshot mixing the two writes: starting from
(0, 0, 1, 10), one atomic write of (5, 5, 2, 10) interleaved after the `x`
read produces the snapshot (0, 5, 2, 10), which is neither the initial
state nor the written state. -/
theorem torn_snapshot_from_per_field_locks :
    updateSnapshot ⟨0, 0, 1, 10⟩ [⟨5, 5, 2, 10⟩] 0 1 1 1 = ⟨0, 5, 2, 10⟩ ∧
    updateSnapshot ⟨0, 0, 1, 10⟩ [⟨5, 5, 2, 10⟩] 0 1 1 1 ≠ ⟨0, 0, 1, 10⟩ ∧
    updateSnapshot ⟨0, 0, 1, 10⟩ [⟨5, 5, 2, 10⟩] 0 1 1 1 ≠ ⟨5, 5, 2, 10⟩ := by
  refine ⟨rfl, ?_, ?_⟩ <;>
    · intro h
      have := congrArg MandleParams.x h
      have h2 := congrArg MandleParams.y h
      simp only [updateSnapshot, paramsAt] at this h2
      norm_num at this h2

/-- C10: the release-build `fixed`-crate multiplication the code relies on
wraps silently on overflow: 512 * 512 = 262144 exceeds the largest
representable `MReal` value (just under 1024), yet `mreal_mul_raw` returns
the bit pattern of 0 — an in-range value with no error or saturation
signal. (With debug assertions the crate panics instead; in neither build
is an explicit overflow condition surfaced as the spec requires.) -/
theorem mreal_mul_overflow_wraps_silently :
    mreal_to_val (mreal_of_int 512) = 512 ∧
    mreal_to_val (mreal_of_int 512) * mreal_to_val (mreal_of_int 512) =
      262144 ∧
    mrealMaxVal < 262144 ∧
    mreal_mul_raw (mreal_of_int 512) (mreal_of_int 512) = 0 ∧
    mreal_to_val (mreal_mul_raw (mreal_of_int 512) (mreal_of_int 512)) = 0 := by
  have hval : mreal_to_val (mreal_of_int 512) = 512 := by
    rw [mreal_to_val, mreal_of_int, mrealFracBits]
    push_cast
    norm_num
  have hmul : mreal_mul_raw (mreal_of_int 512) (mreal_of_int 512) = 0 := by
    rw [mreal_mul_raw, mreal_of_int, mrealFracBits]
    rw [show ((512 : ℤ) * 2 ^ 117 * (512 * 2 ^ 117)) = 2 ^ 135 * 2 ^ 117 by
      norm_num [pow_succ]]
    rw [show Int.fdiv ((2 : ℤ) ^ 135 * 2 ^ 117) (2 ^ 117) = 2 ^ 135 from
      Int.mul_fdiv_cancel _ (by norm_num)]
    norm_num [wrap128]
  refine ⟨hval, ?_, by norm_num [mrealMaxVal], hmul, ?_⟩
  · rw [hval]; norm_num
  · rw [hmul, mreal_to_val]
    norm_num

/-- C7: on the divergence fractions the program produces (all in [0, 1)),
`map_color` computes exactly the spec's algorithm — scale by 2³², truncate
to a 32-bit integer, split into the low (R), second (G) and third (B)
bytes. Being a Lean function of its argument alone, it is deterministic
and pure. -/
theorem map_color_matches_spec_algorithm (x : ℚ) (h0 : 0 ≤ x) (h1 : x < 1) :
    map_color x = map_color_spec x := by
  have h232 : ((4294967296 : ℤ) : ℚ) = 4294967296 := by norm_num
  have hnn : (0 : ℚ) ≤ x * 4294967296 := by positivity
  have hlt : x * 4294967296 < 4294967296 := by nlinarith
  have hfl0 : 0 ≤ ⌊x * 4294967296⌋ := Int.floor_nonneg.mpr hnn
  have hflt : ⌊x * 4294967296⌋ < 4294967296 := by
    rw [Int.floor_lt, h232]
    exact hlt
  have htv : Int.toNat ⌊x * 4294967296⌋ < 2 ^ 32 := by
    omega
  have hcast : x * (2 : ℚ) ^ 32 = x * 4294967296 := by norm_num
  rw [map_color, map_color_spec, rust_as_u32, hcast]
  rw [if_neg (by linarith)]
  rw [min_eq_left (by omega)]
  rw [Nat.mod_eq_of_lt htv]

/-- C7 witness: the spec-algorithm equality at the fraction 1/2. -/
theorem map_color_matches_spec_algorithm_witness :
    map_color (1 / 2) = map_color_spec (1 / 2) :=
  map_color_matches_spec_algorithm (1 / 2) (by norm_num) (by norm_num)

/-- C9: for a grid built by `Grid::new(w, h, default)`, both `get` and
`get_val` hit the halting `panic!` branch exactly when x ≥ w or y ≥ h, and
for in-bounds (x, y) they succeed with no clamping: `get` designates the
storage index y * w + x, which is a valid cell of the backing slice, and
`get_val` returns the cell's value. -/
theorem grid_accessors_fail_iff_out_of_range (T : Type) (w h x y : ℕ)
    (d : T) :
    ((Grid.new T w h d).get x y = none ↔ x ≥ w ∨ y ≥ h) ∧
    ((Grid.new T w h d).get_val x y = none ↔ x ≥ w ∨ y ≥ h) ∧
    (x < w → y < h →
      (Grid.new T w h d).get x y = some (y * w + x) ∧
      y * w + x < (Grid.new T w h d).contents.length ∧
      (Grid.new T w h d).get_val x y = some d) := by
  have hidx : x < w → y < h → y * w + x < w * h := by
    intro hx hy
    calc y * w + x < y * w + w := by omega
    _ = (y + 1) * w := by ring
    _ ≤ h * w := Nat.mul_le_mul_right w (by omega)
    _ = w * h := Nat.mul_comm h w
  refine ⟨?_, ?_, fun hx hy => ?_⟩
  · by_cases hb : x ≥ w ∨ y ≥ h
    · simp [Grid.get, Grid.new, hb]
    · simp [Grid.get, Grid.new, hb]
  · by_cases hb : x ≥ w ∨ y ≥ h
    · simp [Grid.get_val, Grid.new, hb]
    · push_neg at hb
      have := hidx hb.1 hb.2
      simp only [Grid.get_val, Grid.new, ge_iff_le]
      rw [if_neg (by push_neg; omega)]
      rw [List.get?_eq_getElem?, List.getElem?_replicate]
      simp only [List.length_replicate] at *
      rw [if_pos this]
      simp
      omega
  · have hlt := hidx hx hy
    refine ⟨?_, ?_, ?_⟩
    · simp only [Grid.get, Grid.new, ge_iff_le]
      rw [if_neg (by push_neg; omega)]
    · simpa [Grid.new] using hlt
    · simp only [Grid.get_val, Grid.new, ge_iff_le]
      rw [if_neg (by push_neg; omega)]
      rw [List.get?_eq_getElem?, List.getElem?_replicate, if_pos hlt]

/-- A frame-buffer offset no write targets keeps its old byte. -/
theorem applyWrites_of_not_mem (l : List (ℕ × ℕ)) :
    ∀ (f : ℕ → ℕ) (o : ℕ), o ∉ l.map Prod.fst → applyWrites l f o = f o := by
  induction l with
  | nil => intro f o _; rfl
  | cons p t ih =>
    intro f o h
    simp only [List.map_cons, List.mem_cons] at h
    push_neg at h
    have : applyWrites (p :: t) f = applyWrites t (Function.update f p.1 p.2) :=
      rfl
    rw [this, ih _ o h.2, Function.update_noteq h.1]

/-- When the targeted offsets are pairwise distinct, the byte an offset ends
with is the byte of its (unique) write. -/
theorem applyWrites_of_mem_nodup (l : List (ℕ × ℕ)) :
    ∀ (f : ℕ → ℕ) (o v : ℕ), (l.map Prod.fst).Nodup → (o, v) ∈ l →
      applyWrites l f o = v := by
  induction l with
  | nil => intro f o v _ hm; cases hm
  | cons p t ih =>
    intro f o v hnd hm
    simp only [List.map_cons, List.nodup_cons] at hnd
    have hstep : applyWrites (p :: t) f
        = applyWrites t (Function.update f p.1 p.2) := rfl
    rcases List.mem_cons.mp hm with rfl | hmt
    · rw [hstep, applyWrites_of_not_mem t _ _ hnd.1, Function.update_same]
    · rw [hstep]
      exact ih _ o v hnd.2 hmt

/-- The offsets of the render write sequence, pixel block by pixel block. -/
theorem renderWrites_map_fst (w h : ℕ) (val : ℕ → ℕ → ℚ) :
    (renderWritesGen w h val).map Prod.fst =
      (List.range w).flatMap fun x =>
        (List.range h).flatMap fun y => pixelOffsets w x y := by
  rw [renderWritesGen, List.map_flatMap]
  refine List.flatMap_congr fun x _ => ?_
  rw [List.map_flatMap]
  refine List.flatMap_congr fun y _ => ?_
  rfl

/-- Every offset of pixel (x, y)'s block determines the pixel index. -/
theorem pixelOffsets_div (w x y o : ℕ) (h : o ∈ pixelOffsets w x y) :
    o / 4 = x + y * w := by
  simp only [pixelOffsets, List.mem_cons, List.not_mem_nil, or_false] at h
  rcases h with rfl | rfl | rfl | rfl <;> omega

/-- The render write sequence touches each frame-buffer offset at most
once. -/
theorem renderOffsets_nodup (w h : ℕ) (val : ℕ → ℕ → ℚ) (hw : 0 < w) :
    ((renderWritesGen w h val).map Prod.fst).Nodup := by
  rw [renderWrites_map_fst, List.nodup_flatMap]
  constructor
  · intro x _
    rw [List.nodup_flatMap]
    constructor
    · intro y _
      rw [pixelOffsets]
      generalize x + y * w = p
      simp only [List.nodup_cons, List.mem_cons, List.not_mem_nil,
        List.nodup_nil, or_false, not_or, not_false_iff, and_true]
      omega
    · refine List.Pairwise.imp ?_ (List.pairwise_lt_range h)
      intro y1 y2 hylt o ho1 ho2
      have h1 := pixelOffsets_div w x y1 o ho1
      have h2 := pixelOffsets_div w x y2 o ho2
      have heq : y1 * w = y2 * w := by omega
      have := Nat.eq_of_mul_eq_mul_right hw heq
      omega
  · refine List.Pairwise.imp_of_mem ?_ (List.pairwise_lt_range w)
    intro x1 x2 hm1 hm2 hxlt o ho1 ho2
    rw [List.mem_range] at hm1 hm2
    rw [List.mem_flatMap] at ho1 ho2
    obtain ⟨y1, -, hp1⟩ := ho1
    obtain ⟨y2, -, hp2⟩ := ho2
    have h1 := pixelOffsets_div w x1 y1 o hp1
    have h2 := pixelOffsets_div w x2 y2 o hp2
    have heq0 : x1 + y1 * w = x2 + y2 * w := by omega
    have heq : (x1 + y1 * w) % w = (x2 + y2 * w) % w := by rw [heq0]
    rw [Nat.add_mul_mod_self_right, Nat.add_mul_mod_self_right,
      Nat.mod_eq_of_lt hm1, Nat.mod_eq_of_lt hm2] at heq
    omega

/-- The render write sequence targets exactly the frame-buffer byte range
[0, w * h * 4). -/
theorem mem_renderOffsets_iff (w h : ℕ) (val : ℕ → ℕ → ℚ) (hw : 0 < w)
    (o : ℕ) :
    o ∈ (renderWritesGen w h val).map Prod.fst ↔ o < w * h * 4 := by
  rw [renderWrites_map_fst]
  simp only [List.mem_flatMap, List.mem_range]
  constructor
  · rintro ⟨x, hx, y, hy, hm⟩
    have hp : x + y * w < w * h := by
      calc x + y * w < w + y * w := by omega
      _ = (y + 1) * w := by ring
      _ ≤ h * w := Nat.mul_le_mul_right w (by omega)
      _ = w * h := Nat.mul_comm h w
    simp only [pixelOffsets, List.mem_cons, List.not_mem_nil, or_false] at hm
    revert hm hp
    generalize x + y * w = p
    generalize w * h = q
    rintro hp (rfl | rfl | rfl | rfl) <;> omega
  · intro ho
    refine ⟨o / 4 % w, Nat.mod_lt _ hw, o / 4 / w, ?_, ?_⟩
    · rw [Nat.div_lt_iff_lt_mul hw, Nat.mul_comm h w]
      revert ho
      generalize w * h = q
      intro ho
      omega
    · simp only [pixelOffsets, List.mem_cons, List.not_mem_nil, or_false]
      rw [Nat.mod_add_div' (o / 4) w]
      omega

/-- Each of the four byte writes of an in-range pixel occurs in the render
write sequence. -/
theorem pixelWrites_subset_renderWrites (w h : ℕ) (val : ℕ → ℕ → ℚ)
    (x y : ℕ) (hx : x < w) (hy : y < h) (p : ℕ × ℕ)
    (hp : p ∈ pixelWrites w val x y) : p ∈ renderWritesGen w h val := by
  rw [renderWritesGen, List.mem_flatMap]
  exact ⟨x, List.mem_range.mpr hx, List.mem_flatMap.mpr
    ⟨y, List.mem_range.mpr hy, hp⟩⟩

/-- C8: one `render_mandlebrot` call writes every one of the WIDTH x HEIGHT
pixels exactly once — its write sequence targets each frame-buffer offset at
most once (Nodup) and covers exactly the byte range [0, WIDTH·HEIGHT·4) —
and pixel (x, y) with grid value v ends with the `map_color v` bytes at
offsets (x + y·WIDTH)·4 .. +2 and alpha 0xFF at offset +3. -/
theorem render_pipeline_pixel_bytes (g : Grid ℚ) (frame : ℕ → ℕ) (x y : ℕ)
    (v : ℚ) (hx : x < WIDTH) (hy : y < HEIGHT)
    (hv : g.get_val x y = some v) :
    render_mandlebrot g frame ((x + y * WIDTH) * 4) = (map_color v).1 ∧
    render_mandlebrot g frame ((x + y * WIDTH) * 4 + 1) = (map_color v).2.1 ∧
    render_mandlebrot g frame ((x + y * WIDTH) * 4 + 2) = (map_color v).2.2 ∧
    render_mandlebrot g frame ((x + y * WIDTH) * 4 + 3) = 0xff ∧
    ((renderWritesGen WIDTH HEIGHT fun a b => (g.get_val a b).getD 0).map
      Prod.fst).Nodup ∧
    ∀ o, (o ∈ (renderWritesGen WIDTH HEIGHT fun a b =>
      (g.get_val a b).getD 0).map Prod.fst ↔ o < WIDTH * HEIGHT * 4) := by
  have hw : 0 < WIDTH := by norm_num [WIDTH]
  simp only [render_mandlebrot]
  set val : ℕ → ℕ → ℚ := fun a b => (g.get_val a b).getD 0 with hval
  have hnd := renderOffsets_nodup WIDTH HEIGHT val hw
  have hvxy : val x y = v := by rw [hval]; simp only []; rw [hv]; rfl
  have hmem := pixelWrites_subset_renderWrites WIDTH HEIGHT val x y hx hy
  refine ⟨?_, ?_, ?_, ?_, hnd, fun o => mem_renderOffsets_iff WIDTH HEIGHT val hw o⟩
  · exact applyWrites_of_mem_nodup _ frame _ _ hnd
      (hmem _ (by rw [pixelWrites, hvxy]; simp))
  · exact applyWrites_of_mem_nodup _ frame _ _ hnd
      (hmem _ (by rw [pixelWrites, hvxy]; simp))
  · exact applyWrites_of_mem_nodup _ frame _ _ hnd
      (hmem _ (by rw [pixelWrites, hvxy]; simp))
  · exact applyWrites_of_mem_nodup _ frame _ _ hnd
      (hmem _ (by rw [pixelWrites, hvxy]; simp))

/-- C8 witness: the render theorem at pixel (0, 0) of a freshly constructed
WIDTH x HEIGHT grid filled with 1/2, on the all-zero frame buffer. -/
theorem render_pipeline_pixel_bytes_witness :
    render_mandlebrot (Grid.new ℚ WIDTH HEIGHT (1 / 2)) (fun _ => 0)
      ((0 + 0 * WIDTH) * 4) = (map_color (1 / 2)).1 ∧
    render_mandlebrot (Grid.new ℚ WIDTH HEIGHT (1 / 2)) (fun _ => 0)
      ((0 + 0 * WIDTH) * 4 + 1) = (map_color (1 / 2)).2.1 ∧
    render_mandlebrot (Grid.new ℚ WIDTH HEIGHT (1 / 2)) (fun _ => 0)
      ((0 + 0 * WIDTH) * 4 + 2) = (map_color (1 / 2)).2.2 ∧
    render_mandlebrot (Grid.new ℚ WIDTH HEIGHT (1 / 2)) (fun _ => 0)
      ((0 + 0 * WIDTH) * 4 + 3) = 0xff ∧
    ((renderWritesGen WIDTH HEIGHT fun a b =>
      ((Grid.new ℚ WIDTH HEIGHT (1 / 2)).get_val a b).getD 0).map
        Prod.fst).Nodup ∧
    ∀ o, (o ∈ (renderWritesGen WIDTH HEIGHT fun a b =>
      ((Grid.new ℚ WIDTH HEIGHT (1 / 2)).get_val a b).getD 0).map
        Prod.fst ↔ o < WIDTH * HEIGHT * 4) :=
  render_pipeline_pixel_bytes (Grid.new ℚ WIDTH HEIGHT (1 / 2)) (fun _ => 0)
    0 0 (1 / 2) (by norm_num [WIDTH]) (by norm_num [HEIGHT])
    (by
      simp only [Grid.get_val, Grid.new, ge_iff_le]
      rw [if_neg (by push_neg; constructor <;> norm_num [WIDTH, HEIGHT])]
      rw [List.get?_eq_getElem?, List.getElem?_replicate]
      rw [if_pos (by norm_num [WIDTH, HEIGHT])])

end Mandle
